import Mathlib

/-!
A shallow embedding of the Pi-hole API list-mutation engine
(`src/dns/list.rs` and `src/dns/delete_list.rs`).

Strings are modelled as `List Char` (candidates, file contents, list
entries), the file system as a map `PiholeFile → Option (List Char)`
(`none` = the file does not exist), and fallible I/O is modelled by an
injected-failure counter: `World.failAt = some n` makes the `n`-th I/O
primitive of the run fail with a non-NotFound error, `none` injects no
failure.  Every file-touching primitive appends an `FsEvent` to an event
log, so frame properties ("the file was neither read nor written") are
statable.
-/

deriving instance DecidableEq for Except

/-- The backing files, from `config::PiholeFile` as used by `list.rs`. -/
inductive PiholeFile
  | Whitelist
  | Blacklist
  | Regexlist
deriving DecidableEq

/-- The error type of the operations.  `list.rs` uses `util::Error`
(`InvalidDomain`, `AlreadyExists`, `NotFound`, and a conversion from
`io::Error`); `util.rs` is not among the sources at hand, so the
I/O-conversion variants follow the spec's taxonomy (`StoreIOFailure`
for file errors, `NotifyFailure` for daemon-notification errors). -/
inductive Error
  | InvalidDomain
  | AlreadyExists
  | NotFound
  | StoreIOFailure
  | NotifyFailure
deriving DecidableEq

/-- Kinds of `std::io` errors the model distinguishes: `NotFound`
(missing file) versus anything else. -/
inductive IOErrorKind
  | NotFound
  | Other
deriving DecidableEq

/-- File-system events, logged by the I/O primitives:
opening a file for reading, opening it for writing (append or
truncate), and writing one line. -/
inductive FsEvent
  | read (f : PiholeFile)
  | openWrite (f : PiholeFile) (append : Bool)
  | writeLine (f : PiholeFile) (line : List Char)
deriving DecidableEq

/-- The state the operations act on: the file system, the injected
failure (the `failAt`-th I/O primitive fails, counted by `ioCount`),
and the event log. -/
structure World where
  fs : PiholeFile → Option (List Char)
  failAt : Option Nat
  ioCount : Nat
  events : List FsEvent

/-- Increment the I/O-primitive counter. -/
def World.bump (w : World) : World :=
  { w with ioCount := w.ioCount + 1 }

/-- No injected failure remains to fire: any injection index is already
in the past.  Holds in particular when `failAt = none`. -/
def World.NoFail (w : World) : Prop :=
  ∀ t, w.failAt = some t → t < w.ioCount

/-- Point update of a file-system map. -/
def updateFs (fs : PiholeFile → Option (List Char)) (f : PiholeFile)
    (v : Option (List Char)) : PiholeFile → Option (List Char) :=
  fun g => if g = f then v else fs g

/- ### The validator (`dns/common.rs`, modelled)

`is_valid_domain` and `is_valid_regex` live in `dns/common.rs`, which is
not among the sources at hand; both are modelled from the spec. -/

/-- A character permitted inside a hostname label: alphanumeric or
hyphen. -/
def validLabelChar (c : Char) : Bool :=
  c.isAlphanum || c = '-'

/-- Split a character list at every `'.'` (the label separators of a
domain name). -/
def splitLabels : List Char → List (List Char)
  | [] => [[]]
  | c :: cs =>
    if c = '.' then [] :: splitLabels cs
    else
      match splitLabels cs with
      | [] => [[c]]
      | l :: ls => (c :: l) :: ls

/-- A valid hostname label: 1–63 characters, drawn from the hostname
character set, neither starting nor ending with a hyphen. -/
def validLabel (l : List Char) : Bool :=
  decide (1 ≤ l.length) && decide (l.length ≤ 63) && l.all validLabelChar
    && decide (l.head? ≠ some '-') && decide (l.getLast? ≠ some '-')

/-- Modelled from the spec: `is_valid_domain` of `dns/common.rs` is not
among the sources at hand.  Spec §4.1: a candidate is a valid domain
when every `.`-separated label has 1–63 characters from the hostname
character set and the overall length is bounded (≤ 253); input is not
lowercased. -/
def is_valid_domain (domain : List Char) : Bool :=
  decide (domain.length ≤ 253) && (splitLabels domain).all validLabel

/-- One-character-at-a-time scan underlying `is_valid_regex`: tracks
the parenthesis depth, whether the scanner is inside a `[...]` class,
and whether the previous character was an escaping backslash.  Control
characters that would break the one-pattern-per-line file layout
(newline, carriage return) are rejected outright. -/
def regexScan : List Char → Nat → Bool → Bool → Bool
  | [], depth, inClass, esc => decide (depth = 0) && !inClass && !esc
  | c :: cs, depth, inClass, esc =>
    if c = '\n' ∨ c = '\r' then false
    else if esc then regexScan cs depth inClass false
    else if c = '\\' then regexScan cs depth inClass true
    else if inClass then
      (if c = ']' then regexScan cs depth false false
       else regexScan cs depth true false)
    else if c = '[' then regexScan cs depth true false
    else if c = '(' then regexScan cs (depth + 1) inClass false
    else if c = ')' then
      (match depth with
       | 0 => false
       | d + 1 => regexScan cs d inClass false)
    else regexScan cs depth inClass false

/-- Modelled from the spec: `is_valid_regex` of `dns/common.rs` is not
among the sources at hand.  Spec §4.1: the candidate must compile as a
regular expression in the daemon's dialect; modelled as a syntactic
sanity check — non-empty, single-line (entries are stored one per
line), balanced `(...)` and `[...]`, no dangling escape. -/
def is_valid_regex (pattern : List Char) : Bool :=
  decide (pattern.length ≠ 0) && regexScan pattern 0 false false

/- ### Line-splitting (Rust `BufRead::lines`) -/

/-- Split a character list at every `'\n'`; the separators are
consumed.  Always returns at least one (possibly empty) segment. -/
def splitNl : List Char → List (List Char)
  | [] => [[]]
  | c :: cs =>
    if c = '\n' then [] :: splitNl cs
    else
      match splitNl cs with
      | [] => [[c]]
      | l :: ls => (c :: l) :: ls

/-- Drop a trailing empty segment (the artifact of a final `'\n'`). -/
def dropFinalEmpty (segs : List (List Char)) : List (List Char) :=
  match segs.getLast? with
  | some [] => segs.dropLast
  | _ => segs

/-- Strip one trailing `'\r'`, as Rust's `BufRead::lines` does after
removing the `'\n'`. -/
def stripCr (l : List Char) : List Char :=
  match l.getLast? with
  | some '\r' => l.dropLast
  | _ => l

/-- Rust's `BufRead::lines` on the full contents: split at `'\n'`,
drop the empty segment a trailing `'\n'` produces, strip one trailing
`'\r'` from each line. -/
def rustLines (c : List Char) : List (List Char) :=
  (dropFinalEmpty (splitNl c)).map stripCr

/-- Join entries into file contents: each entry followed by `'\n'`,
exactly what `writeln!` produces for each of them in order. -/
def joinLines : List (List Char) → List Char
  | [] => []
  | l :: ls => l ++ '\n' :: joinLines ls

/-- The entries `List::get` extracts from given file contents: the
lines, with empty lines discarded (`.filter(|line| line.len() != 0)`). -/
def entriesOfContent (c : List Char) : List (List Char) :=
  (rustLines c).filter (fun l => decide (l.length ≠ 0))

/- ### I/O primitives (`Config::read_file`, `Config::write_file`, `writeln!`) -/

/-- `Config::read_file`: open the backing file for reading.  One I/O
primitive: it fails with a non-NotFound error when the injected failure
fires, with `NotFound` when the file does not exist, and otherwise
yields the contents. -/
def read_file (w : World) (f : PiholeFile) : Except IOErrorKind (List Char) × World :=
  let w' := { w.bump with events := w.events ++ [FsEvent.read f] }
  if w.failAt = some w.ioCount then (.error .Other, w')
  else
    match w.fs f with
    | none => (.error .NotFound, w')
    | some c => (.ok c, w')

/-- The `BufReader::lines` iteration of `List::get`: each line read is
one I/O primitive; a line whose read fails is dropped by
`.filter_map(|line| line.ok())` and the iteration continues. -/
def readLinesAux : List (List Char) → World → List (List Char) × World
  | [], w => ([], w)
  | l :: ls, w =>
    let (rest, w') := readLinesAux ls w.bump
    (if w.failAt = some w.ioCount then rest else l :: rest, w')

/-- `Config::write_file(file, append)`: open the file create-or-append
(`append = true`) or create-or-truncate (`append = false`).  One I/O
primitive; on success the file exists, truncated to empty unless
opened in append mode. -/
def write_file (w : World) (f : PiholeFile) (append : Bool) : Except IOErrorKind Unit × World :=
  let w' := { w.bump with events := w.events ++ [FsEvent.openWrite f append] }
  if w.failAt = some w.ioCount then (.error .Other, w')
  else if append then
    (.ok (), { w' with fs := updateFs w.fs f (some ((w.fs f).getD [])) })
  else
    (.ok (), { w' with fs := updateFs w.fs f (some []) })

/-- `writeln!(file, "{}", d)`: append `d` and a newline to the (open)
file.  One I/O primitive; on failure nothing is written. -/
def writeLn (w : World) (f : PiholeFile) (d : List Char) : Except IOErrorKind Unit × World :=
  let w' := { w.bump with events := w.events ++ [FsEvent.writeLine f d] }
  if w.failAt = some w.ioCount then (.error .Other, w')
  else (.ok (), { w' with fs := updateFs w.fs f (some (((w.fs f).getD []) ++ d ++ ['\n'])) })

/-- The write loop of `List::remove`: write each surviving entry with
`writeln!`, propagating the first failure (`writeln!(writer, ...)?`). -/
def writeLoop (f : PiholeFile) : List (List Char) → World → Except Error Unit × World
  | [], w => (.ok (), w)
  | d :: ds, w =>
    match writeLn w f d with
    | (.error _, w') => (.error .StoreIOFailure, w')
    | (.ok _, w') => writeLoop f ds w'

/- ### The list type and its operations (`src/dns/list.rs`) -/

/-- The `List` enum of `list.rs` (named `ListKind` here because `List`
is taken by Lean's list type). -/
inductive ListKind
  | White
  | Black
  | Regex
deriving DecidableEq

namespace ListKind

/-- `List::file`: the associated `PiholeFile`. -/
def file : ListKind → PiholeFile
  | .White => PiholeFile.Whitelist
  | .Black => PiholeFile.Blacklist
  | .Regex => PiholeFile.Regexlist

/-- `List::accepts`: whether the list accepts the candidate as valid —
the regex validator for the regex list, the domain validator for the
other two. -/
def accepts : ListKind → List Char → Bool
  | .Regex, domain => is_valid_regex domain
  | .White, domain => is_valid_domain domain
  | .Black, domain => is_valid_domain domain

/-- `List::get`: read the domains from the list.  A `NotFound` open
error yields the empty list; any other open error propagates as a
store failure; otherwise the lines are read (failed line reads are
dropped) and empty lines are discarded. -/
def get (k : ListKind) (w : World) : Except Error (List (List Char)) × World :=
  match read_file w k.file with
  | (.error e, w') =>
    if e = IOErrorKind.NotFound then (.ok [], w')
    else (.error .StoreIOFailure, w')
  | (.ok c, w') =>
    let (ls, w'') := readLinesAux (rustLines c) w'
    (.ok (ls.filter (fun l => decide (l.length ≠ 0))), w'')

/-- `List::add`: validate, check for duplicates against the current
list, then append the domain and a newline in create-or-append mode. -/
def add (k : ListKind) (domain : List Char) (w : World) : Except Error Unit × World :=
  if !k.accepts domain then (.error .InvalidDomain, w)
  else
    match k.get w with
    | (.error e, w') => (.error e, w')
    | (.ok domains, w') =>
      if domain ∈ domains then (.error .AlreadyExists, w')
      else
        match write_file w' k.file true with
        | (.error _, w'') => (.error .StoreIOFailure, w'')
        | (.ok _, w'') =>
          match writeLn w'' k.file domain with
          | (.error _, w''') => (.error .StoreIOFailure, w''')
          | (.ok _, w''') => (.ok (), w''')

/-- `List::remove`: validate, check the domain is present, then open
the file in create-or-truncate mode and write back every entry except
the ones equal to the domain. -/
def remove (k : ListKind) (domain : List Char) (w : World) : Except Error Unit × World :=
  if !k.accepts domain then (.error .InvalidDomain, w)
  else
    match k.get w with
    | (.error e, w') => (.error e, w')
    | (.ok domains, w') =>
      if domain ∉ domains then (.error .NotFound, w')
      else
        match write_file w' k.file false with
        | (.error _, w'') => (.error .StoreIOFailure, w'')
        | (.ok _, w'') => writeLoop k.file (domains.filter (fun item => decide (item ≠ domain))) w''

/-- `List::try_remove`: like `remove`, but a `NotFound` failure is
reported as success; every other failure propagates. -/
def try_remove (k : ListKind) (domain : List Char) (w : World) : Except Error Unit × World :=
  match k.remove domain w with
  | (.ok _, w') => (.ok (), w')
  | (.error e, w') =>
    if e = Error.NotFound then (.ok (), w')
    else (.error e, w')

end ListKind

/-- The entries currently stored for a list kind: what `List::get`
yields from the on-disk contents when no I/O failure interferes (an
absent file is semantically empty). -/
def fileEntries (k : ListKind) (w : World) : List (List Char) :=
  entriesOfContent ((w.fs k.file).getD [])

/- ### The regex-list delete endpoint (`src/dns/delete_list.rs`) -/

/-- Modelled from the spec: the daemon control channel.
`FtlConnectionType::connect` and `expect_eom` are outside the sources
at hand; spec §4.4/§6: a command is sent over the control channel and
the caller waits for an end-of-message acknowledgment.  `connectOk`
says whether opening the channel and sending succeed, `eomOk` whether
the end-of-message acknowledgment arrives, and `sent` logs the
commands sent. -/
structure FtlState where
  connectOk : Bool
  eomOk : Bool
  sent : List (List Char)

/-- Modelled from the spec: `FtlConnectionType::connect(cmd)` — open
the control channel and send `cmd`; on failure nothing is sent. -/
def ftl_connect (ftl : FtlState) (cmd : List Char) : Except Error Unit × FtlState :=
  if ftl.connectOk then (.ok (), { ftl with sent := ftl.sent ++ [cmd] })
  else (.error .NotifyFailure, ftl)

/-- Modelled from the spec: `expect_eom()` — wait for the
end-of-message acknowledgment of the last command. -/
def expect_eom (ftl : FtlState) : Except Error Unit :=
  if ftl.eomOk then .ok () else .error .NotifyFailure

/-- The command `delete_regexlist` sends after a successful removal. -/
def recompileRegexCmd : List Char := "recompile-regex".toList

/-- `delete_regexlist`: remove the domain from the regex list; on
success connect to FTL, send `recompile-regex`, and wait for the
end-of-message acknowledgment; only then reply success.  Any failure
propagates to the caller (`?`). -/
def delete_regexlist (domain : List Char) (w : World) (ftl : FtlState) :
    Except Error Unit × World × FtlState :=
  match ListKind.Regex.remove domain w with
  | (.error e, w') => (.error e, w', ftl)
  | (.ok _, w') =>
    match ftl_connect ftl recompileRegexCmd with
    | (.error e, ftl') => (.error e, w', ftl')
    | (.ok _, ftl') =>
      match expect_eom ftl' with
      | .error e => (.error e, w', ftl')
      | .ok _ => (.ok (), w', ftl')

/-- A line that round-trips through the file format: it contains no
newline (so it stays one line) and does not end in a carriage return
(so `BufRead::lines` reads it back unchanged). -/
def GoodLine (l : List Char) : Prop :=
  '\n' ∉ l ∧ l.getLast? ≠ some '\r'

instance (l : List Char) : Decidable (GoodLine l) := by
  unfold GoodLine
  infer_instance

/- ### Basic lemmas -/

theorem noFail_of_none {w : World} (h : w.failAt = none) : w.NoFail := by
  intro t ht
  rw [h] at ht
  exact absurd ht (by simp)

theorem noFail_not_fire {w : World} (h : w.NoFail) : ¬ w.failAt = some w.ioCount := by
  intro he
  exact absurd (h _ he) (lt_irrefl _)

theorem World.NoFail.mono {w w' : World} (h : w.NoFail) (hfa : w'.failAt = w.failAt)
    (hio : w.ioCount ≤ w'.ioCount) : w'.NoFail := by
  intro t ht
  exact lt_of_lt_of_le (h t (hfa ▸ ht)) hio

@[simp] theorem updateFs_apply (fs : PiholeFile → Option (List Char)) (f : PiholeFile)
    (v : Option (List Char)) : updateFs fs f v f = v := by
  simp [updateFs]

theorem updateFs_apply_ne (fs : PiholeFile → Option (List Char)) {f g : PiholeFile}
    (v : Option (List Char)) (h : g ≠ f) : updateFs fs f v g = fs g := by
  simp [updateFs, h]

theorem updateFs_updateFs (fs : PiholeFile → Option (List Char)) (f : PiholeFile)
    (v v' : Option (List Char)) : updateFs (updateFs fs f v) f v' = updateFs fs f v' := by
  funext g
  simp only [updateFs]
  split <;> rfl

theorem updateFs_self {fs : PiholeFile → Option (List Char)} {f : PiholeFile}
    {c : List Char} (h : fs f = some c) : updateFs fs f (some c) = fs := by
  funext g
  simp only [updateFs]
  split
  · next hg => rw [hg, h]
  · rfl

/- ### Lemmas on line splitting and joining -/

theorem splitNl_ne_nil (c : List Char) : splitNl c ≠ [] := by
  match c with
  | [] => simp [splitNl]
  | a :: cs =>
    rw [splitNl]
    split
    · simp
    · split <;> simp

theorem splitNl_cons_join {l rest : List Char} (h : '\n' ∉ l) :
    splitNl (l ++ '\n' :: rest) = l :: splitNl rest := by
  induction l with
  | nil => simp [splitNl]
  | cons a l ih =>
    have ha : a ≠ '\n' := by
      intro hh
      exact h (hh ▸ List.mem_cons_self a l)
    have hl : '\n' ∉ l := fun hh => h (List.mem_cons_of_mem a hh)
    rw [List.cons_append, splitNl, if_neg ha, ih hl]

theorem splitNl_join (ls : List (List Char)) (h : ∀ l ∈ ls, '\n' ∉ l) :
    splitNl (joinLines ls) = ls ++ [[]] := by
  induction ls with
  | nil => simp [joinLines, splitNl]
  | cons l ls ih =>
    rw [joinLines, splitNl_cons_join (h l (List.mem_cons_self l ls)),
      ih (fun x hx => h x (List.mem_cons_of_mem l hx))]
    rfl

theorem dropFinalEmpty_concat (ls : List (List Char)) :
    dropFinalEmpty (ls ++ [[]]) = ls := by
  rw [dropFinalEmpty, List.getLast?_concat]
  exact List.dropLast_concat

theorem stripCr_eq_self {l : List Char} (h : l.getLast? ≠ some '\r') : stripCr l = l := by
  rw [stripCr]
  split
  · next heq => exact absurd heq h
  · rfl

/-- The split segments never contain the separator. -/
theorem not_nl_mem_of_mem_splitNl {c : List Char} {l : List Char}
    (h : l ∈ splitNl c) : '\n' ∉ l := by
  induction c generalizing l with
  | nil =>
    simp [splitNl] at h
    simp [h]
  | cons a cs ih =>
    rw [splitNl] at h
    by_cases ha : a = '\n'
    · rw [if_pos ha] at h
      rcases List.mem_cons.mp h with h1 | h1
      · simp [h1]
      · exact ih h1
    · rw [if_neg ha] at h
      rcases hs : splitNl cs with _ | ⟨l0, ls0⟩
      · exact absurd hs (splitNl_ne_nil cs)
      · rw [hs] at h
        rcases List.mem_cons.mp h with h1 | h1
        · subst h1
          intro hm
          rcases List.mem_cons.mp hm with h2 | h2
          · exact ha h2.symm
          · exact ih (hs ▸ List.mem_cons_self l0 ls0) h2
        · exact ih (hs ▸ List.mem_cons_of_mem l0 h1)

theorem map_stripCr_eq (ls : List (List Char)) (h : ∀ l ∈ ls, l.getLast? ≠ some '\r') :
    ls.map stripCr = ls := by
  induction ls with
  | nil => rfl
  | cons l ls ih =>
    rw [List.map_cons, stripCr_eq_self (h l (List.mem_cons_self l ls)),
      ih (fun x hx => h x (List.mem_cons_of_mem l hx))]

theorem rustLines_join (ls : List (List Char)) (h : ∀ l ∈ ls, GoodLine l) :
    rustLines (joinLines ls) = ls := by
  rw [rustLines, splitNl_join ls (fun l hl => (h l hl).1), dropFinalEmpty_concat]
  exact map_stripCr_eq ls (fun l hl => (h l hl).2)

theorem entriesOfContent_join (ls : List (List Char)) (h : ∀ l ∈ ls, GoodLine l) :
    entriesOfContent (joinLines ls) = ls.filter (fun l => decide (l.length ≠ 0)) := by
  rw [entriesOfContent, rustLines_join ls h]

/- ### The validator accepts only line-safe candidates -/

theorem splitLabels_ne_nil (c : List Char) : splitLabels c ≠ [] := by
  match c with
  | [] => simp [splitLabels]
  | a :: cs =>
    rw [splitLabels]
    split
    · simp
    · split <;> simp

/-- Every character of a domain appears in one of its labels or is the
separator. -/
theorem mem_splitLabels_of_mem {d : List Char} {c : Char} (h : c ∈ d) :
    c = '.' ∨ ∃ l ∈ splitLabels d, c ∈ l := by
  induction d with
  | nil => exact absurd h (List.not_mem_nil c)
  | cons a d ih =>
    rw [splitLabels]
    by_cases ha : a = '.'
    · rw [if_pos ha]
      rcases List.mem_cons.mp h with h1 | h1
      · exact Or.inl (h1.trans ha)
      · rcases ih h1 with h2 | ⟨l, hl, hcl⟩
        · exact Or.inl h2
        · exact Or.inr ⟨l, List.mem_cons_of_mem _ hl, hcl⟩
    · rw [if_neg ha]
      rcases hs : splitLabels d with _ | ⟨l0, ls0⟩
      · exact absurd hs (splitLabels_ne_nil d)
      · rcases List.mem_cons.mp h with h1 | h1
        · exact Or.inr ⟨a :: l0, List.mem_cons_self _ _, h1 ▸ List.mem_cons_self a l0⟩
        · rcases ih h1 with h2 | ⟨l, hl, hcl⟩
          · exact Or.inl h2
          · rw [hs] at hl
            rcases List.mem_cons.mp hl with h3 | h3
            · exact Or.inr ⟨a :: l0, List.mem_cons_self _ _,
                List.mem_cons_of_mem a (h3 ▸ hcl)⟩
            · exact Or.inr ⟨l, List.mem_cons_of_mem _ h3, hcl⟩

/-- A valid domain consists of label characters and dots only. -/
theorem valid_domain_chars {d : List Char} (h : is_valid_domain d = true) {c : Char}
    (hc : c ∈ d) : c = '.' ∨ validLabelChar c = true := by
  rw [is_valid_domain, Bool.and_eq_true, List.all_eq_true] at h
  rcases mem_splitLabels_of_mem hc with h1 | ⟨l, hl, hcl⟩
  · exact Or.inl h1
  · have := h.2 l hl
    simp only [validLabel, Bool.and_eq_true, List.all_eq_true] at this
    exact Or.inr (this.1.1.2 c hcl)

theorem valid_domain_good {d : List Char} (h : is_valid_domain d = true) :
    GoodLine d ∧ d ≠ [] := by
  have hchar : ∀ c ∈ d, c ≠ '\n' ∧ c ≠ '\r' := by
    intro c hc
    rcases valid_domain_chars h hc with h1 | h1
    · subst h1
      exact ⟨by decide, by decide⟩
    · constructor <;> (intro he; subst he; exact absurd h1 (by decide))
  refine ⟨⟨fun hm => (hchar _ hm).1 rfl, fun hl => ?_⟩, fun hnil => ?_⟩
  · exact (hchar _ (List.mem_of_mem_getLast? hl)).2 rfl
  · subst hnil
    exact absurd h (by decide)

theorem regexScan_chars {p : List Char} {depth : Nat} {inClass esc : Bool}
    (h : regexScan p depth inClass esc = true) : ∀ c ∈ p, c ≠ '\n' ∧ c ≠ '\r' := by
  induction p generalizing depth inClass esc with
  | nil => intro c hc; exact absurd hc (List.not_mem_nil c)
  | cons a p ih =>
    intro c hc
    rw [regexScan.eq_def] at h
    simp only [] at h
    by_cases ha : a = '\n' ∨ a = '\r'
    · rw [if_pos ha] at h
      exact absurd h (by decide)
    · rw [if_neg ha] at h
      push_neg at ha
      rcases List.mem_cons.mp hc with h1 | h1
      · exact h1 ▸ ⟨ha.1, ha.2⟩
      · by_cases he : esc = true
        · rw [if_pos he] at h
          exact ih h c h1
        · rw [if_neg he] at h
          by_cases hb : a = '\\'
          · rw [if_pos hb] at h
            exact ih h c h1
          · rw [if_neg hb] at h
            by_cases hic : inClass = true
            · rw [if_pos hic] at h
              by_cases hbr : a = ']'
              · rw [if_pos hbr] at h
                exact ih h c h1
              · rw [if_neg hbr] at h
                exact ih h c h1
            · rw [if_neg hic] at h
              by_cases hop : a = '['
              · rw [if_pos hop] at h
                exact ih h c h1
              · rw [if_neg hop] at h
                by_cases hpo : a = '('
                · rw [if_pos hpo] at h
                  exact ih h c h1
                · rw [if_neg hpo] at h
                  by_cases hpc : a = ')'
                  · rw [if_pos hpc] at h
                    match depth, h with
                    | d + 1, h => exact ih h c h1
                  · rw [if_neg hpc] at h
                    exact ih h c h1

theorem valid_regex_good {p : List Char} (h : is_valid_regex p = true) :
    GoodLine p ∧ p ≠ [] := by
  rw [is_valid_regex, Bool.and_eq_true] at h
  have hchar := regexScan_chars h.2
  refine ⟨⟨fun hm => (hchar _ hm).1 rfl, fun hl => ?_⟩, fun hnil => ?_⟩
  · exact (hchar _ (List.mem_of_mem_getLast? hl)).2 rfl
  · subst hnil
    exact absurd h.1 (by decide)

/-- Whatever the list kind, an accepted candidate is non-empty and
survives the write/read round trip as a single line. -/
theorem accepts_good {k : ListKind} {d : List Char} (h : k.accepts d = true) :
    GoodLine d ∧ d ≠ [] := by
  cases k with
  | Regex => exact valid_regex_good h
  | White => exact valid_domain_good h
  | Black => exact valid_domain_good h

/- ### Characterization of the I/O primitives when no injected failure fires -/

theorem read_file_eq (w : World) (f : PiholeFile) (h : w.NoFail) :
    read_file w f =
      ((w.fs f).elim (Except.error IOErrorKind.NotFound) Except.ok,
        { w with ioCount := w.ioCount + 1, events := w.events ++ [FsEvent.read f] }) := by
  rw [read_file]
  simp only [World.bump]
  rw [if_neg (noFail_not_fire h)]
  cases w.fs f <;> rfl

theorem readLinesAux_eq (ls : List (List Char)) (w : World) (h : w.NoFail) :
    ∃ n, w.ioCount ≤ n ∧ readLinesAux ls w = (ls, { w with ioCount := n }) := by
  induction ls generalizing w with
  | nil => exact ⟨w.ioCount, le_refl _, rfl⟩
  | cons l ls ih =>
    obtain ⟨n, hn, heq⟩ := ih w.bump (h.mono rfl (Nat.le_succ _))
    refine ⟨n, le_trans (Nat.le_succ _) hn, ?_⟩
    rw [readLinesAux, heq]
    dsimp only
    rw [if_neg (noFail_not_fire h)]
    rfl

theorem write_file_eq (w : World) (f : PiholeFile) (append : Bool) (h : w.NoFail) :
    write_file w f append =
      (.ok (), { w with
        fs := updateFs w.fs f (some (if append then (w.fs f).getD [] else [])),
        ioCount := w.ioCount + 1,
        events := w.events ++ [FsEvent.openWrite f append] }) := by
  rw [write_file]
  simp only [World.bump]
  rw [if_neg (noFail_not_fire h)]
  cases append <;> rfl

theorem writeLn_eq (w : World) (f : PiholeFile) (d : List Char) (h : w.NoFail) :
    writeLn w f d =
      (.ok (), { w with
        fs := updateFs w.fs f (some ((w.fs f).getD [] ++ d ++ ['\n'])),
        ioCount := w.ioCount + 1,
        events := w.events ++ [FsEvent.writeLine f d] }) := by
  rw [writeLn]
  simp only [World.bump]
  rw [if_neg (noFail_not_fire h)]

theorem writeLoop_eq (ds : List (List Char)) (w : World) (f : PiholeFile) (c : List Char)
    (h : w.NoFail) (hf : w.fs f = some c) :
    ∃ n, w.ioCount ≤ n ∧ writeLoop f ds w =
      (.ok (), { w with
        fs := updateFs w.fs f (some (c ++ joinLines ds)),
        ioCount := n,
        events := w.events ++ ds.map (FsEvent.writeLine f) }) := by
  induction ds generalizing w c with
  | nil =>
    refine ⟨w.ioCount, le_refl _, ?_⟩
    have hfs : updateFs w.fs f (some (c ++ joinLines [])) = w.fs := by
      rw [joinLines, List.append_nil]
      exact updateFs_self hf
    rw [writeLoop, hfs]
    simp
  | cons d ds ih =>
    rw [writeLoop, writeLn_eq w f d h]
    set w1 : World :=
      { w with
        fs := updateFs w.fs f (some ((w.fs f).getD [] ++ d ++ ['\n'])),
        ioCount := w.ioCount + 1,
        events := w.events ++ [FsEvent.writeLine f d] } with hw1
    have h1 : w1.NoFail := h.mono rfl (Nat.le_succ _)
    have hf1 : w1.fs f = some (c ++ d ++ ['\n']) := by
      rw [hw1]
      simp [hf]
    obtain ⟨n, hn, heq⟩ := ih w1 (c ++ d ++ ['\n']) h1 hf1
    refine ⟨n, le_trans (Nat.le_succ _) (le_trans (by rw [hw1]) hn), heq.trans ?_⟩
    rw [hw1]
    simp [updateFs_updateFs, joinLines, List.append_assoc]

/- ### Characterization of `List::get` -/

theorem get_eq (k : ListKind) (w : World) (h : w.NoFail) :
    ∃ n, w.ioCount ≤ n ∧ k.get w =
      (.ok (fileEntries k w),
        { w with ioCount := n, events := w.events ++ [FsEvent.read k.file] }) := by
  rw [ListKind.get, read_file_eq w k.file h]
  cases hfs : w.fs k.file with
  | none =>
    refine ⟨w.ioCount + 1, Nat.le_succ _, ?_⟩
    have he : fileEntries k w = [] := by
      rw [fileEntries, hfs]
      rfl
    rw [he]
    rfl
  | some c =>
    have h1 : World.NoFail
        { w with ioCount := w.ioCount + 1, events := w.events ++ [FsEvent.read k.file] } :=
      h.mono rfl (Nat.le_succ _)
    obtain ⟨n, hn, heq⟩ := readLinesAux_eq (rustLines c) _ h1
    refine ⟨n, le_trans (Nat.le_succ _) hn, ?_⟩
    dsimp only [Option.elim]
    rw [heq]
    dsimp only
    have he : fileEntries k w = (rustLines c).filter (fun l => decide (l.length ≠ 0)) := by
      rw [fileEntries, hfs]
      rfl
    rw [he]

/-- `get` never writes: the file system is unchanged on every path,
whatever failures fire. -/
theorem read_file_fs (w : World) (f : PiholeFile) : (read_file w f).2.fs = w.fs := by
  by_cases hf : w.failAt = some w.ioCount
  · simp [read_file, hf, World.bump]
  · simp only [read_file, World.bump]
    rw [if_neg hf]
    cases w.fs f <;> rfl

theorem readLinesAux_fs (ls : List (List Char)) (w : World) :
    (readLinesAux ls w).2.fs = w.fs := by
  induction ls generalizing w with
  | nil => rfl
  | cons l ls ih =>
    rw [readLinesAux]
    dsimp only
    rw [ih w.bump]
    rfl

theorem get_fs (k : ListKind) (w : World) : (k.get w).2.fs = w.fs := by
  rw [ListKind.get]
  rcases hr : read_file w k.file with ⟨r, w1⟩
  have h1 : w1.fs = w.fs := by
    have := read_file_fs w k.file
    rw [hr] at this
    exact this
  cases r with
  | error e =>
    dsimp only
    split <;> exact h1
  | ok c =>
    dsimp only
    rcases ha : readLinesAux (rustLines c) w1 with ⟨ls, w2⟩
    have h2 : w2.fs = w1.fs := by
      have := readLinesAux_fs (rustLines c) w1
      rw [ha] at this
      exact this
    exact h2.trans h1

/- ### Characterization of `List::add`, `List::remove`, `List::try_remove` -/

theorem add_invalid (k : ListKind) (d : List Char) (w : World) (h : k.accepts d = false) :
    k.add d w = (.error .InvalidDomain, w) := by
  rw [ListKind.add, if_pos (by rw [h]; rfl)]

theorem remove_invalid (k : ListKind) (d : List Char) (w : World) (h : k.accepts d = false) :
    k.remove d w = (.error .InvalidDomain, w) := by
  rw [ListKind.remove, if_pos (by rw [h]; rfl)]

theorem try_remove_invalid (k : ListKind) (d : List Char) (w : World)
    (h : k.accepts d = false) : k.try_remove d w = (.error .InvalidDomain, w) := by
  rw [ListKind.try_remove, remove_invalid k d w h]
  rfl

theorem add_dup (k : ListKind) (d : List Char) (w : World) (h : w.NoFail)
    (hacc : k.accepts d = true) (hmem : d ∈ fileEntries k w) :
    ∃ n, w.ioCount ≤ n ∧ k.add d w =
      (.error .AlreadyExists,
        { w with ioCount := n, events := w.events ++ [FsEvent.read k.file] }) := by
  obtain ⟨n, hn, hg⟩ := get_eq k w h
  refine ⟨n, hn, ?_⟩
  rw [ListKind.add, if_neg (by rw [hacc]; simp), hg]
  dsimp only
  rw [if_pos hmem]

theorem add_ok (k : ListKind) (d : List Char) (w : World) (h : w.NoFail)
    (hacc : k.accepts d = true) (habs : d ∉ fileEntries k w) :
    ∃ n, w.ioCount ≤ n ∧ k.add d w =
      (.ok (),
        { w with
          fs := updateFs w.fs k.file (some ((w.fs k.file).getD [] ++ d ++ ['\n'])),
          ioCount := n,
          events := w.events ++ [FsEvent.read k.file, FsEvent.openWrite k.file true,
            FsEvent.writeLine k.file d] }) := by
  obtain ⟨n1, hn1, hg⟩ := get_eq k w h
  set w1 : World := { w with ioCount := n1, events := w.events ++ [FsEvent.read k.file] }
    with hw1
  have h1 : w1.NoFail := h.mono rfl hn1
  rw [ListKind.add, if_neg (by rw [hacc]; simp), hg]
  dsimp only
  rw [if_neg habs, write_file_eq w1 k.file true h1]
  dsimp only
  set w2 : World :=
    { w1 with
      fs := updateFs w1.fs k.file (some (if true then (w1.fs k.file).getD [] else [])),
      ioCount := w1.ioCount + 1,
      events := w1.events ++ [FsEvent.openWrite k.file true] } with hw2
  have h2 : w2.NoFail := h1.mono rfl (Nat.le_succ _)
  rw [writeLn_eq w2 k.file d h2]
  refine ⟨w2.ioCount + 1, ?_, ?_⟩
  · calc w.ioCount ≤ n1 := hn1
      _ ≤ n1 + 1 + 1 := by omega
  · dsimp only
    simp [updateFs_updateFs, updateFs_apply, List.append_assoc]

theorem remove_notfound (k : ListKind) (d : List Char) (w : World) (h : w.NoFail)
    (hacc : k.accepts d = true) (habs : d ∉ fileEntries k w) :
    ∃ n, w.ioCount ≤ n ∧ k.remove d w =
      (.error .NotFound,
        { w with ioCount := n, events := w.events ++ [FsEvent.read k.file] }) := by
  obtain ⟨n, hn, hg⟩ := get_eq k w h
  refine ⟨n, hn, ?_⟩
  rw [ListKind.remove, if_neg (by rw [hacc]; simp), hg]
  dsimp only
  rw [if_pos habs]

theorem remove_found (k : ListKind) (d : List Char) (w : World) (h : w.NoFail)
    (hacc : k.accepts d = true) (hmem : d ∈ fileEntries k w) :
    ∃ n, w.ioCount ≤ n ∧ k.remove d w =
      (.ok (),
        { w with
          fs := updateFs w.fs k.file
            (some (joinLines ((fileEntries k w).filter (fun item => decide (item ≠ d))))),
          ioCount := n,
          events := w.events ++ [FsEvent.read k.file, FsEvent.openWrite k.file false]
            ++ ((fileEntries k w).filter (fun item => decide (item ≠ d))).map
              (FsEvent.writeLine k.file) }) := by
  obtain ⟨n1, hn1, hg⟩ := get_eq k w h
  set w1 : World := { w with ioCount := n1, events := w.events ++ [FsEvent.read k.file] }
    with hw1
  have h1 : w1.NoFail := h.mono rfl hn1
  rw [ListKind.remove, if_neg (by rw [hacc]; simp), hg]
  dsimp only
  rw [if_neg (by simp [hmem]), write_file_eq w1 k.file false h1]
  dsimp only
  set w2 : World :=
    { w1 with
      fs := updateFs w1.fs k.file (some (if false then (w1.fs k.file).getD [] else [])),
      ioCount := w1.ioCount + 1,
      events := w1.events ++ [FsEvent.openWrite k.file false] } with hw2
  have h2 : w2.NoFail := h1.mono rfl (Nat.le_succ _)
  have hf2 : w2.fs k.file = some [] := by
    rw [hw2]
    simp
  obtain ⟨n, hn, heq⟩ := writeLoop_eq ((fileEntries k w).filter (fun item => decide (item ≠ d)))
    w2 k.file [] h2 hf2
  refine ⟨n, le_trans hn1 (le_trans (Nat.le_succ _) (le_trans (le_refl _) ?_)), heq.trans ?_⟩
  · calc n1 + 1 = w2.ioCount := rfl
      _ ≤ n := hn
  · rw [hw2, hw1]
    simp [updateFs_updateFs, List.append_assoc]

theorem try_remove_ok (k : ListKind) (d : List Char) (w : World) (h : w.NoFail)
    (hacc : k.accepts d = true) :
    (k.try_remove d w).1 = .ok () ∧ (k.try_remove d w).2.NoFail ∧
      (k.try_remove d w).2.failAt = w.failAt := by
  by_cases hmem : d ∈ fileEntries k w
  · obtain ⟨n, hn, heq⟩ := remove_found k d w h hacc hmem
    rw [ListKind.try_remove, heq]
    exact ⟨rfl, h.mono rfl hn, rfl⟩
  · obtain ⟨n, hn, heq⟩ := remove_notfound k d w h hacc hmem
    rw [ListKind.try_remove, heq]
    exact ⟨rfl, h.mono rfl hn, rfl⟩

/- ### Claim theorems -/

/-- C5: for every candidate the list's validator rejects, `add` and
`remove` fail with `InvalidDomain` (the spec's InvalidEntry) and return
the starting state unchanged — in particular the backing file is
neither read nor written (no event is logged) and its contents are
unchanged byte-for-byte. -/
theorem C5_invalid_rejected_before_io (k : ListKind) (d : List Char) (w : World)
    (h : k.accepts d = false) :
    k.add d w = (.error .InvalidDomain, w) ∧
    k.remove d w = (.error .InvalidDomain, w) :=
  ⟨add_invalid k d w h, remove_invalid k d w h⟩

/-- C5 witness: `add("not a domain!!")` and `remove("not a domain!!")`
against the whitelist fail with `InvalidDomain` leaving the world
untouched. -/
theorem C5_witness :
    ListKind.White.accepts "not a domain!!".toList = false ∧
    ListKind.White.add "not a domain!!".toList ⟨fun _ => none, none, 0, []⟩ =
      (.error .InvalidDomain, ⟨fun _ => none, none, 0, []⟩) ∧
    ListKind.White.remove "not a domain!!".toList ⟨fun _ => none, none, 0, []⟩ =
      (.error .InvalidDomain, ⟨fun _ => none, none, 0, []⟩) := by
  have h := C5_invalid_rejected_before_io ListKind.White "not a domain!!".toList
    ⟨fun _ => none, none, 0, []⟩ (by decide)
  exact ⟨by decide, h.1, h.2⟩

/-- C7: `get` on a list whose backing file was never created succeeds
with the empty sequence (and performs exactly one read), rather than
reporting an error. -/
theorem C7_missing_file_is_empty (k : ListKind) (w : World) (hfa : w.failAt = none)
    (hmiss : w.fs k.file = none) :
    k.get w = (.ok [],
      { w with ioCount := w.ioCount + 1, events := w.events ++ [FsEvent.read k.file] }) := by
  rw [ListKind.get, read_file_eq w k.file (noFail_of_none hfa), hmiss]
  rfl

/-- C7 witness: `get` on an empty file system returns `ok []`. -/
theorem C7_witness :
    ListKind.Black.get ⟨fun _ => none, none, 0, []⟩ =
      (.ok [], ⟨fun _ => none, none, 1, [FsEvent.read PiholeFile.Blacklist]⟩) := by
  have h := C7_missing_file_is_empty ListKind.Black ⟨fun _ => none, none, 0, []⟩ rfl rfl
  exact h

/-- C9: a candidate the validator rejects cannot be removed even when
that exact string is stored as a line of the backing file: both
`remove` and `try_remove` fail with `InvalidDomain` and leave the
state untouched, so a malformed stored entry is undeletable through
these operations. -/
theorem C9_invalid_stored_entry_undeletable (k : ListKind) (d : List Char) (w : World)
    (h : k.accepts d = false) (_hmem : d ∈ fileEntries k w) :
    k.remove d w = (.error .InvalidDomain, w) ∧
    k.try_remove d w = (.error .InvalidDomain, w) :=
  ⟨remove_invalid k d w h, try_remove_invalid k d w h⟩

/-- C9 witness: `"not a domain!!"` stored as a whitelist line cannot be
removed. -/
theorem C9_witness :
    ListKind.White.accepts "not a domain!!".toList = false ∧
    "not a domain!!".toList ∈ fileEntries ListKind.White
      ⟨fun f => if f = PiholeFile.Whitelist then some "not a domain!!\n".toList else none,
        none, 0, []⟩ ∧
    ListKind.White.try_remove "not a domain!!".toList
      ⟨fun f => if f = PiholeFile.Whitelist then some "not a domain!!\n".toList else none,
        none, 0, []⟩ =
      (.error .InvalidDomain,
        ⟨fun f => if f = PiholeFile.Whitelist then some "not a domain!!\n".toList else none,
          none, 0, []⟩) := by
  have h := C9_invalid_stored_entry_undeletable ListKind.White "not a domain!!".toList
    ⟨fun f => if f = PiholeFile.Whitelist then some "not a domain!!\n".toList else none,
      none, 0, []⟩ (by decide) (by decide)
  exact ⟨by decide, by decide, h.2⟩

/-- C10: `try_remove` of a valid candidate that is absent from the list
succeeds while performing no write at all: the only event is the read
of the backing file, and the file system (in particular whether the
file exists and its exact contents) is unchanged, because `remove`
returns `NotFound` before opening the file for writing and `try_remove`
swallows that failure. -/
theorem C10_try_remove_absent_no_write (k : ListKind) (d : List Char) (w : World)
    (hacc : k.accepts d = true) (hfa : w.failAt = none) (habs : d ∉ fileEntries k w) :
    ∃ n, k.try_remove d w =
      (.ok (), { w with ioCount := n, events := w.events ++ [FsEvent.read k.file] }) := by
  obtain ⟨n, hn, heq⟩ := remove_notfound k d w (noFail_of_none hfa) hacc habs
  refine ⟨n, ?_⟩
  rw [ListKind.try_remove, heq]
  rfl

/-- C10 witness: `try_remove("example.com")` on a never-created
whitelist succeeds, does not create the file, and logs only a read. -/
theorem C10_witness :
    ListKind.White.accepts "example.com".toList = true ∧
    "example.com".toList ∉ fileEntries ListKind.White ⟨fun _ => none, none, 0, []⟩ ∧
    ∃ n, ListKind.White.try_remove "example.com".toList ⟨fun _ => none, none, 0, []⟩ =
      (.ok (), ⟨fun _ => none, none, n, [FsEvent.read PiholeFile.Whitelist]⟩) := by
  have h := C10_try_remove_absent_no_write ListKind.White "example.com".toList
    ⟨fun _ => none, none, 0, []⟩ (by decide) rfl (by decide)
  exact ⟨by decide, by decide, h⟩

/-- C6: starting from an empty list (file absent or empty), adding a
valid candidate succeeds and a second `add` of the same candidate fails
with `AlreadyExists` (presence is decided by exact string match against
the current list); after both calls the file contains exactly the one
line holding that candidate. -/
theorem C6_duplicate_add_guard (k : ListKind) (d : List Char) (w : World)
    (hacc : k.accepts d = true) (hfa : w.failAt = none)
    (hempty : w.fs k.file = none ∨ w.fs k.file = some []) :
    (k.add d w).1 = .ok () ∧
    (k.add d w).2.fs k.file = some (d ++ ['\n']) ∧
    (k.add d ((k.add d w).2)).1 = .error .AlreadyExists ∧
    (k.add d ((k.add d w).2)).2.fs k.file = some (d ++ ['\n']) := by
  have hnf := noFail_of_none hfa
  have hgd : (w.fs k.file).getD [] = [] := by
    rcases hempty with h1 | h1 <;> rw [h1] <;> rfl
  have hE : fileEntries k w = [] := by
    rw [fileEntries, hgd]
    rfl
  obtain ⟨n, hn, heq⟩ := add_ok k d w hnf hacc (by rw [hE]; exact List.not_mem_nil d)
  obtain ⟨⟨hnl, hcr⟩, hne⟩ := accepts_good hacc
  have hfs1 : (k.add d w).2.fs k.file = some (d ++ ['\n']) := by
    rw [heq]
    dsimp only
    rw [updateFs_apply, hgd, List.nil_append]
  have hE1 : fileEntries k ((k.add d w).2) = [d] := by
    rw [fileEntries, hfs1]
    have hj : d ++ ['\n'] = joinLines [d] := by
      rw [joinLines, joinLines]
    rw [Option.getD_some, hj,
      entriesOfContent_join [d] (by intro l hl; rw [List.mem_singleton] at hl; exact hl ▸ ⟨hnl, hcr⟩)]
    rw [List.filter_cons]
    simp [hne]
  have hnf1 : ((k.add d w).2).NoFail := by
    rw [heq]
    exact hnf.mono rfl hn
  obtain ⟨n2, hn2, heq2⟩ := add_dup k d ((k.add d w).2) hnf1 hacc (by rw [hE1]; exact List.mem_singleton.mpr rfl)
  refine ⟨by rw [heq], hfs1, by rw [heq2], ?_⟩
  rw [heq2]
  dsimp only
  exact hfs1

/-- C6 witness: `add("example.com")` twice on an empty whitelist — the
first succeeds, the second fails with `AlreadyExists`, and the file
holds exactly the line `example.com`. -/
theorem C6_witness :
    (ListKind.White.add "example.com".toList ⟨fun _ => none, none, 0, []⟩).1 = .ok () ∧
    (ListKind.White.add "example.com".toList ⟨fun _ => none, none, 0, []⟩).2.fs
      PiholeFile.Whitelist = some ("example.com".toList ++ ['\n']) ∧
    (ListKind.White.add "example.com".toList
      ((ListKind.White.add "example.com".toList ⟨fun _ => none, none, 0, []⟩).2)).1 =
      .error .AlreadyExists ∧
    (ListKind.White.add "example.com".toList
      ((ListKind.White.add "example.com".toList ⟨fun _ => none, none, 0, []⟩).2)).2.fs
      PiholeFile.Whitelist = some ("example.com".toList ++ ['\n']) :=
  C6_duplicate_add_guard ListKind.White "example.com".toList ⟨fun _ => none, none, 0, []⟩
    (by decide) rfl (Or.inl rfl)

/-- C1 counterexample: for a candidate the validator rejects,
`try_remove` fails both times (with `InvalidDomain`, which it does not
swallow), so "tryRemove called twice never fails for every candidate
and every starting state" is false as stated. -/
theorem C1_counterexample :
    (ListKind.White.try_remove "not a domain!!".toList ⟨fun _ => none, none, 0, []⟩).1 =
      .error .InvalidDomain ∧
    (ListKind.White.try_remove "not a domain!!".toList
      (ListKind.White.try_remove "not a domain!!".toList
        ⟨fun _ => none, none, 0, []⟩).2).1 = .error .InvalidDomain := by
  decide

/-- C1 (amended): for every candidate the list's validator accepts and
every starting list-file state (with no injected I/O failure),
`try_remove` called twice in a row never fails: both calls report
success whether or not the candidate was present before the first
call. -/
theorem C1_try_remove_idempotent (k : ListKind) (d : List Char) (w : World)
    (hacc : k.accepts d = true) (hfa : w.failAt = none) :
    (k.try_remove d w).1 = .ok () ∧
    (k.try_remove d ((k.try_remove d w).2)).1 = .ok () := by
  have h1 := try_remove_ok k d w (noFail_of_none hfa) hacc
  have h2 := try_remove_ok k d ((k.try_remove d w).2) h1.2.1 hacc
  exact ⟨h1.1, h2.1⟩

/-- C1 witness: `try_remove("example.com")` twice on a whitelist that
contains `example.com` — both calls succeed (the first deletes, the
second hits the swallowed `NotFound`). -/
theorem C1_witness :
    (ListKind.White.try_remove "example.com".toList
      ⟨fun f => if f = PiholeFile.Whitelist then some "example.com\n".toList else none,
        none, 0, []⟩).1 = .ok () ∧
    (ListKind.White.try_remove "example.com".toList
      ((ListKind.White.try_remove "example.com".toList
        ⟨fun f => if f = PiholeFile.Whitelist then some "example.com\n".toList else none,
          none, 0, []⟩).2)).1 = .ok () :=
  C1_try_remove_idempotent ListKind.White "example.com".toList
    ⟨fun f => if f = PiholeFile.Whitelist then some "example.com\n".toList else none,
      none, 0, []⟩ (by decide) rfl

theorem joinLines_concat (ls : List (List Char)) (d : List Char) :
    joinLines (ls ++ [d]) = joinLines ls ++ (d ++ ['\n']) := by
  induction ls with
  | nil => rfl
  | cons l ls ih =>
    rw [List.cons_append, joinLines, ih, joinLines]
    simp [List.append_assoc]

/-- C2 counterexample: the round-trip fails on byte-level edge states.
First half: on a whitelist file holding `foo` **without** a trailing
newline, `add("bar")` succeeds but appends into the last line, so
`get` afterwards contains `foobar` and no `bar` at all.  Second half:
on a whitelist file holding `a\na\r\r\n`, the stored entries read back
as `a` and `a\r`; `remove("a")` succeeds and rewrites the survivor as
`a\r\n`, which reads back as `a` — the removed candidate is present
again after a successful remove. -/
theorem C2_counterexample :
    ((ListKind.White.add "bar".toList
        ⟨fun f => if f = PiholeFile.Whitelist then some "foo".toList else none,
          none, 0, []⟩).1 = .ok () ∧
      (fileEntries ListKind.White (ListKind.White.add "bar".toList
        ⟨fun f => if f = PiholeFile.Whitelist then some "foo".toList else none,
          none, 0, []⟩).2).count "bar".toList = 0) ∧
    ((ListKind.White.remove "a".toList
        ⟨fun f => if f = PiholeFile.Whitelist then some "a\na\r\r\n".toList else none,
          none, 0, []⟩).1 = .ok () ∧
      "a".toList ∈ fileEntries ListKind.White (ListKind.White.remove "a".toList
        ⟨fun f => if f = PiholeFile.Whitelist then some "a\na\r\r\n".toList else none,
          none, 0, []⟩).2) := by
  decide

/-- C2 (amended): the round-trip holds on well-formed file states.  If
the backing file's contents are a join of newline-terminated lines,
none of which contains a newline or ends in a carriage return (which
holds for every file these operations write from accepted candidates,
and vacuously for an absent file), then for a candidate the validator
accepts: a successful `add(d)` is followed by a `get` that includes
`d` exactly once, and a successful `remove(d)` is followed by a `get`
that includes no entry equal to `d` — all occurrences are gone. -/
theorem C2_round_trip (k : ListKind) (d : List Char) (w : World) (ls : List (List Char))
    (hacc : k.accepts d = true) (hfa : w.failAt = none)
    (hwf : (w.fs k.file).getD [] = joinLines ls) (hgood : ∀ l ∈ ls, GoodLine l) :
    ((k.add d w).1 = .ok () → (fileEntries k (k.add d w).2).count d = 1) ∧
    ((k.remove d w).1 = .ok () → d ∉ fileEntries k (k.remove d w).2) := by
  have hnf := noFail_of_none hfa
  have hE : fileEntries k w = ls.filter (fun l => decide (l.length ≠ 0)) := by
    rw [fileEntries, hwf, entriesOfContent_join ls hgood]
  obtain ⟨⟨hnl, hcr⟩, hne⟩ := accepts_good hacc
  constructor
  · intro hok
    by_cases hmem : d ∈ fileEntries k w
    · obtain ⟨n, hn, heq⟩ := add_dup k d w hnf hacc hmem
      rw [heq] at hok
      exact absurd hok (by simp)
    · obtain ⟨n, hn, heq⟩ := add_ok k d w hnf hacc hmem
      rw [heq]
      dsimp only
      rw [fileEntries]
      dsimp only
      rw [updateFs_apply, Option.getD_some, hwf]
      have hj : joinLines ls ++ d ++ ['\n'] = joinLines (ls ++ [d]) := by
        rw [joinLines_concat, List.append_assoc]
      have hgood2 : ∀ l ∈ ls ++ [d], GoodLine l := by
        intro l hl
        rcases List.mem_append.mp hl with h1 | h1
        · exact hgood l h1
        · rw [List.mem_singleton] at h1
          exact h1 ▸ ⟨hnl, hcr⟩
      rw [hj, entriesOfContent_join (ls ++ [d]) hgood2, List.filter_append]
      have hdF : List.filter (fun l => decide (l.length ≠ 0)) [d] = [d] := by
        rw [List.filter_cons]
        simp [hne]
      rw [hdF, List.count_append]
      have h0 : (ls.filter (fun l => decide (l.length ≠ 0))).count d = 0 :=
        List.count_eq_zero.mpr (hE ▸ hmem)
      rw [h0]
      simp
  · intro hok
    by_cases hmem : d ∈ fileEntries k w
    · obtain ⟨n, hn, heq⟩ := remove_found k d w hnf hacc hmem
      rw [heq]
      dsimp only
      rw [fileEntries]
      dsimp only
      rw [updateFs_apply, Option.getD_some]
      have hgds : ∀ l ∈ (fileEntries k w).filter (fun item => decide (item ≠ d)), GoodLine l := by
        intro l hl
        have h1 : l ∈ fileEntries k w := (List.mem_filter.mp hl).1
        rw [hE] at h1
        exact hgood l (List.mem_filter.mp h1).1
      rw [entriesOfContent_join _ hgds]
      intro hd
      have h1 := (List.mem_filter.mp hd).1
      have h2 := (List.mem_filter.mp h1).2
      simp at h2
    · obtain ⟨n, hn, heq⟩ := remove_notfound k d w hnf hacc hmem
      rw [heq] at hok
      exact absurd hok (by simp)

/-- C2 witness: on a well-formed whitelist holding `old.example`, the
added candidate `example.com` appears exactly once after `add`, and
`old.example` is gone after `remove`. -/
theorem C2_witness :
    (fileEntries ListKind.White (ListKind.White.add "example.com".toList
      ⟨fun f => if f = PiholeFile.Whitelist then some "old.example\n".toList else none,
        none, 0, []⟩).2).count "example.com".toList = 1 ∧
    "old.example".toList ∉ fileEntries ListKind.White (ListKind.White.remove "old.example".toList
      ⟨fun f => if f = PiholeFile.Whitelist then some "old.example\n".toList else none,
        none, 0, []⟩).2 := by
  constructor
  · exact (C2_round_trip ListKind.White "example.com".toList
      ⟨fun f => if f = PiholeFile.Whitelist then some "old.example\n".toList else none,
        none, 0, []⟩ ["old.example".toList] (by decide) rfl (by decide) (by decide)).1
      (by decide)
  · exact (C2_round_trip ListKind.White "old.example".toList
      ⟨fun f => if f = PiholeFile.Whitelist then some "old.example\n".toList else none,
        none, 0, []⟩ ["old.example".toList] (by decide) rfl (by decide) (by decide)).2
      (by decide)

/-- When the injected failure hits the `i`-th line read, that line is
dropped by `filter_map(|line| line.ok())` and iteration continues. -/
theorem readLinesAux_drop (ls : List (List Char)) (w : World) (i : Nat)
    (hfa : w.failAt = some (w.ioCount + i)) (hlen : i < ls.length) :
    ∃ n, readLinesAux ls w = (ls.eraseIdx i, { w with ioCount := n }) := by
  induction ls generalizing w i with
  | nil => exact absurd hlen (by simp)
  | cons l ls ih =>
    cases i with
    | zero =>
      have hb : (w.bump).NoFail := by
        intro t ht
        rw [World.bump] at ht ⊢
        dsimp only at ht ⊢
        rw [hfa] at ht
        injection ht with ht
        omega
      obtain ⟨n, hn, heq⟩ := readLinesAux_eq ls w.bump hb
      refine ⟨n, ?_⟩
      rw [readLinesAux, heq]
      dsimp only
      rw [if_pos (by rw [hfa, Nat.add_zero]), List.eraseIdx_cons_zero]
      rfl
    | succ j =>
      have hne : ¬ w.failAt = some w.ioCount := by
        rw [hfa]
        intro hcon
        injection hcon with hcon
        omega
      have hb : w.bump.failAt = some (w.bump.ioCount + j) := by
        rw [World.bump]
        dsimp only
        rw [hfa]
        congr 1
        omega
      obtain ⟨n, heq⟩ := ih w.bump j hb (by simpa using Nat.lt_of_succ_lt_succ hlen)
      refine ⟨n, ?_⟩
      rw [readLinesAux, heq]
      dsimp only
      rw [if_neg hne, List.eraseIdx_cons_succ]
      rfl

/-- C4 counterexample: the whitelist file holds the two entries `a` and
`b`, and the injected failure makes the read of the first line fail;
`get` neither propagates an error nor returns the full list — it
silently returns the shorter sequence `[b]`. -/
theorem C4_counterexample :
    fileEntries ListKind.White
      ⟨fun f => if f = PiholeFile.Whitelist then some "a\nb\n".toList else none,
        some 1, 0, []⟩ = [['a'], ['b']] ∧
    (ListKind.White.get
      ⟨fun f => if f = PiholeFile.Whitelist then some "a\nb\n".toList else none,
        some 1, 0, []⟩).1 = .ok [['b']] := by
  decide

/-- C4 (amended): only errors from **opening** the file propagate.  If
the injected failure hits the open, `get` fails with `StoreIOFailure`;
but if it hits the read of the `i`-th line during iteration, `get`
succeeds and silently drops that line, returning a shorter sequence. -/
theorem C4_open_error_propagates_line_error_dropped (k : ListKind) (w : World)
    (c : List Char) (i : Nat) :
    (w.failAt = some w.ioCount → (k.get w).1 = .error .StoreIOFailure) ∧
    (w.fs k.file = some c → w.failAt = some (w.ioCount + 1 + i) →
      i < (rustLines c).length →
      (k.get w).1 = .ok (((rustLines c).eraseIdx i).filter
        (fun l => decide (l.length ≠ 0)))) := by
  constructor
  · intro hf
    have hr : read_file w k.file =
        (.error .Other, { w.bump with events := w.events ++ [FsEvent.read k.file] }) := by
      rw [read_file]
      dsimp only
      rw [if_pos hf]
    rw [ListKind.get, hr]
    rfl
  · intro hfs hfa hlen
    have hne : ¬ w.failAt = some w.ioCount := by
      rw [hfa]
      intro hcon
      injection hcon with hcon
      omega
    have hr : read_file w k.file =
        (.ok c, { w.bump with events := w.events ++ [FsEvent.read k.file] }) := by
      rw [read_file]
      dsimp only
      rw [if_neg hne, hfs]
    rw [ListKind.get, hr]
    dsimp only
    have hfa1 : ({ w.bump with events := w.events ++ [FsEvent.read k.file] } : World).failAt
        = some (({ w.bump with events := w.events ++ [FsEvent.read k.file] } : World).ioCount + i) := by
      rw [World.bump]
      dsimp only
      rw [hfa]
    obtain ⟨n, heq⟩ := readLinesAux_drop (rustLines c) _ i hfa1 hlen
    rw [heq]

/-- C4 witness: the open-failure case propagates `StoreIOFailure`, and
the line-failure case returns the shortened list. -/
theorem C4_witness :
    (ListKind.Black.get
      ⟨fun f => if f = PiholeFile.Blacklist then some "a\nb\n".toList else none,
        some 0, 0, []⟩).1 = .error .StoreIOFailure ∧
    (ListKind.Black.get
      ⟨fun f => if f = PiholeFile.Blacklist then some "a\nb\n".toList else none,
        some 1, 0, []⟩).1 = .ok ((( rustLines "a\nb\n".toList).eraseIdx 0).filter
        (fun l => decide (l.length ≠ 0))) := by
  constructor
  · exact (C4_open_error_propagates_line_error_dropped ListKind.Black
      ⟨fun f => if f = PiholeFile.Blacklist then some "a\nb\n".toList else none,
        some 0, 0, []⟩ "a\nb\n".toList 0).1 rfl
  · exact (C4_open_error_propagates_line_error_dropped ListKind.Black
      ⟨fun f => if f = PiholeFile.Blacklist then some "a\nb\n".toList else none,
        some 1, 0, []⟩ "a\nb\n".toList 0).2 (by decide) rfl (by decide)

/-- The write loop of `remove` either completes, or fails having
written exactly the first `i` surviving entries (for some `i` short of
all of them) after the truncation. -/
theorem writeLoop_cases (ds : List (List Char)) (w : World) (f : PiholeFile) (c : List Char)
    (hf : w.fs f = some c) :
    (writeLoop f ds w).1 = .ok () ∨
    ∃ i, i < ds.length ∧ (writeLoop f ds w).1 = .error .StoreIOFailure ∧
      (writeLoop f ds w).2.fs f = some (c ++ joinLines (ds.take i)) := by
  induction ds generalizing w c with
  | nil => exact Or.inl rfl
  | cons d ds ih =>
    by_cases hfail : w.failAt = some w.ioCount
    · right
      have hwl : writeLn w f d =
          (.error .Other, { w.bump with events := w.events ++ [FsEvent.writeLine f d] }) := by
        rw [writeLn]
        dsimp only
        rw [if_pos hfail]
      refine ⟨0, by simp, ?_, ?_⟩
      · rw [writeLoop, hwl]
      · rw [writeLoop, hwl]
        dsimp only
        rw [World.bump]
        dsimp only
        rw [hf, List.take_zero, joinLines, List.append_nil]
    · have hwl : writeLn w f d =
          (.ok (), { w.bump with
            fs := updateFs w.fs f (some ((w.fs f).getD [] ++ d ++ ['\n'])),
            events := w.events ++ [FsEvent.writeLine f d] }) := by
        rw [writeLn]
        dsimp only
        rw [if_neg hfail]
      set w1 : World := { w.bump with
        fs := updateFs w.fs f (some ((w.fs f).getD [] ++ d ++ ['\n'])),
        events := w.events ++ [FsEvent.writeLine f d] } with hw1
      have hf1 : w1.fs f = some (c ++ d ++ ['\n']) := by
        rw [hw1]
        dsimp only
        rw [updateFs_apply, hf, Option.getD_some]
      rcases ih w1 (c ++ d ++ ['\n']) hf1 with hok | ⟨i, hi, herr, hfs2⟩
      · left
        rw [writeLoop, hwl]
        dsimp only
        exact hok
      · right
        refine ⟨i + 1, by simpa using Nat.succ_lt_succ hi, ?_, ?_⟩
        · rw [writeLoop, hwl]
          dsimp only
          exact herr
        · rw [writeLoop, hwl]
          dsimp only
          rw [hfs2, List.take_succ_cons, joinLines]
          simp [List.append_assoc]

/-- C3 counterexample: removing `a` from a whitelist holding
`a\nb\nc\n` with a write failure injected at the last line write
(primitive 6) fails and leaves the file holding `b\n` — a strict
prefix of the complete replacement `b\nc\n`, and not the prior
contents either.  The rewrite is not all-or-nothing. -/
theorem C3_counterexample :
    (ListKind.White.remove "a".toList
      ⟨fun f => if f = PiholeFile.Whitelist then some "a\nb\nc\n".toList else none,
        some 6, 0, []⟩).1 = .error .StoreIOFailure ∧
    joinLines ((fileEntries ListKind.White
      ⟨fun f => if f = PiholeFile.Whitelist then some "a\nb\nc\n".toList else none,
        some 6, 0, []⟩).filter (fun item => decide (item ≠ "a".toList))) = "b\nc\n".toList ∧
    (ListKind.White.remove "a".toList
      ⟨fun f => if f = PiholeFile.Whitelist then some "a\nb\nc\n".toList else none,
        some 6, 0, []⟩).2.fs PiholeFile.Whitelist = some "b\n".toList ∧
    "b\n".toList ≠ "a\nb\nc\n".toList ∧
    "b\n".toList ≠ "b\nc\n".toList := by
  decide

/-- C3 (amended): a failing `remove` leaves the backing file holding
either the complete prior contents (when the failure strikes before
the truncating open: validation, read, `NotFound`, or the open itself)
or the first `i` surviving entries for some `i` short of all of them —
an incomplete prefix of the replacement is possible, because `remove`
truncates and then writes the surviving entries one at a time. -/
theorem C3_remove_failure_prior_or_incomplete (k : ListKind) (d : List Char)
    (w : World) (e : Error) (herr : (k.remove d w).1 = .error e) :
    (k.remove d w).2.fs k.file = w.fs k.file ∨
    ∃ ls i, (k.get w).1 = .ok ls ∧
      i < (ls.filter (fun item => decide (item ≠ d))).length ∧
      (k.remove d w).2.fs k.file =
        some (joinLines ((ls.filter (fun item => decide (item ≠ d))).take i)) := by
  by_cases hacc : k.accepts d = true
  · rcases hget : k.get w with ⟨r, w1⟩
    have hw1fs : w1.fs = w.fs := by
      have h1 := get_fs k w
      rw [hget] at h1
      exact h1
    rw [ListKind.remove, if_neg (by rw [hacc]; simp), hget] at herr ⊢
    cases r with
    | error e1 =>
      dsimp only at herr ⊢
      left
      rw [hw1fs]
    | ok domains =>
      dsimp only at herr ⊢
      by_cases hmem : d ∉ domains
      · rw [if_pos hmem] at herr ⊢
        left
        rw [hw1fs]
      · rw [if_neg hmem] at herr ⊢
        by_cases hfail : w1.failAt = some w1.ioCount
        · have hwf : write_file w1 k.file false =
              (.error .Other, { w1.bump with
                events := w1.events ++ [FsEvent.openWrite k.file false] }) := by
            rw [write_file]
            dsimp only
            rw [if_pos hfail]
          rw [hwf] at herr ⊢
          dsimp only at herr ⊢
          left
          rw [World.bump]
          dsimp only
          rw [hw1fs]
        · have hwf : write_file w1 k.file false =
              (.ok (), { w1.bump with
                fs := updateFs w1.fs k.file (some []),
                events := w1.events ++ [FsEvent.openWrite k.file false] }) := by
            rw [write_file]
            dsimp only
            rw [if_neg hfail]
            rfl
          rw [hwf] at herr ⊢
          dsimp only at herr ⊢
          have hf2 : ({ w1.bump with
              fs := updateFs w1.fs k.file (some []),
              events := w1.events ++ [FsEvent.openWrite k.file false] } : World).fs k.file
              = some [] := by
            dsimp only
            rw [updateFs_apply]
          rcases writeLoop_cases (domains.filter (fun item => decide (item ≠ d))) _ k.file []
            hf2 with hok | ⟨i, hi, herr2, hfs2⟩
          · rw [hok] at herr
            exact absurd herr (by simp)
          · right
            refine ⟨domains, i, rfl, hi, ?_⟩
            rw [hfs2, List.nil_append]
  · left
    have hacc2 : k.accepts d = false := by
      rwa [Bool.not_eq_true] at hacc
    rw [remove_invalid k d w hacc2]

/-- C3 witness: the same failing run as the counterexample, seen
through the amended theorem — the file holds the one-entry prefix of
the two surviving entries. -/
theorem C3_witness :
    (ListKind.White.remove "a".toList
      ⟨fun f => if f = PiholeFile.Whitelist then some "a\nb\nc\n".toList else none,
        some 6, 0, []⟩).2.fs PiholeFile.Whitelist =
      (⟨fun f => if f = PiholeFile.Whitelist then some "a\nb\nc\n".toList else none,
        some 6, 0, []⟩ : World).fs PiholeFile.Whitelist ∨
    ∃ ls i, (ListKind.White.get
      ⟨fun f => if f = PiholeFile.Whitelist then some "a\nb\nc\n".toList else none,
        some 6, 0, []⟩).1 = .ok ls ∧
      i < (ls.filter (fun item => decide (item ≠ "a".toList))).length ∧
      (ListKind.White.remove "a".toList
        ⟨fun f => if f = PiholeFile.Whitelist then some "a\nb\nc\n".toList else none,
          some 6, 0, []⟩).2.fs PiholeFile.Whitelist =
        some (joinLines ((ls.filter (fun item => decide (item ≠ "a".toList))).take i)) :=
  C3_remove_failure_prior_or_incomplete ListKind.White "a".toList
    ⟨fun f => if f = PiholeFile.Whitelist then some "a\nb\nc\n".toList else none,
      some 6, 0, []⟩ Error.StoreIOFailure (by decide)

/-- C8: after a successful removal from the regex list,
`delete_regexlist` sends exactly one `recompile-regex` command over the
control channel (none when even connecting fails), reports success if
and only if the command was sent and the end-of-message acknowledgment
arrived, and — whatever the notification outcome — leaves the file
system in the post-removal state: a notification failure after the
committed mutation surfaces as an error, never as silent success. -/
theorem C8_regex_delete_notifies (d : List Char) (w : World) (ftl : FtlState)
    (hok : (ListKind.Regex.remove d w).1 = .ok ()) :
    (delete_regexlist d w ftl).2.1 = (ListKind.Regex.remove d w).2 ∧
    (ftl.connectOk = true →
      (delete_regexlist d w ftl).2.2.sent = ftl.sent ++ [recompileRegexCmd]) ∧
    (ftl.connectOk = false → (delete_regexlist d w ftl).2.2.sent = ftl.sent) ∧
    ((delete_regexlist d w ftl).1 = .ok () ↔
      (ftl.connectOk = true ∧ ftl.eomOk = true)) := by
  rcases hrm : ListKind.Regex.remove d w with ⟨r, w1⟩
  rw [hrm] at hok
  dsimp only at hok
  subst hok
  rw [delete_regexlist, hrm]
  dsimp only
  cases hc : ftl.connectOk with
  | false =>
    rw [ftl_connect, if_neg (by rw [hc]; simp)]
    dsimp only
    refine ⟨rfl, by simp [hc], fun _ => rfl, by simp [hc]⟩
  | true =>
    rw [ftl_connect, if_pos (by rw [hc])]
    dsimp only
    cases he : ftl.eomOk with
    | false =>
      rw [expect_eom]
      dsimp only
      rw [if_neg (by simp)]
      exact ⟨rfl, fun _ => rfl, by simp [hc], by simp [he]⟩
    | true =>
      rw [expect_eom]
      dsimp only
      rw [if_pos rfl]
      exact ⟨rfl, fun _ => rfl, by simp [hc], by simp [hc, he]⟩

/-- C8 witness: removing `^.*example.com$` from a regex list holding
exactly that pattern, with a healthy daemon channel — the command log
gains one `recompile-regex` and the call succeeds; the same removal
with a failing acknowledgment cannot report success. -/
theorem C8_witness :
    (delete_regexlist "^.*example.com$".toList
      ⟨fun f => if f = PiholeFile.Regexlist then some "^.*example.com$\n".toList else none,
        none, 0, []⟩ ⟨true, true, []⟩).2.2.sent = [] ++ [recompileRegexCmd] ∧
    ((delete_regexlist "^.*example.com$".toList
      ⟨fun f => if f = PiholeFile.Regexlist then some "^.*example.com$\n".toList else none,
        none, 0, []⟩ ⟨true, true, []⟩).1 = .ok () ↔ (true = true ∧ true = true)) ∧
    ((delete_regexlist "^.*example.com$".toList
      ⟨fun f => if f = PiholeFile.Regexlist then some "^.*example.com$\n".toList else none,
        none, 0, []⟩ ⟨true, false, []⟩).1 = .ok () ↔ (true = true ∧ false = true)) := by
  refine ⟨?_, ?_, ?_⟩
  · exact (C8_regex_delete_notifies "^.*example.com$".toList
      ⟨fun f => if f = PiholeFile.Regexlist then some "^.*example.com$\n".toList else none,
        none, 0, []⟩ ⟨true, true, []⟩ (by decide)).2.1 rfl
  · exact (C8_regex_delete_notifies "^.*example.com$".toList
      ⟨fun f => if f = PiholeFile.Regexlist then some "^.*example.com$\n".toList else none,
        none, 0, []⟩ ⟨true, true, []⟩ (by decide)).2.2.2
  · exact (C8_regex_delete_notifies "^.*example.com$".toList
      ⟨fun f => if f = PiholeFile.Regexlist then some "^.*example.com$\n".toList else none,
        none, 0, []⟩ ⟨true, false, []⟩ (by decide)).2.2.2
